import Mathlib

/-!
Verification of the dependency-resolution and graph-construction core of the
blender_doc project (src/blender_doc): the LinkRegistry cycle-aware edge set,
the MetadataStore indices, the FileProcessor worklist traversal, and the
DigraphBuilder folder-hierarchy graph, shallowly embedded from
data_structures.py, file_processor.py, digraph_builder.py and main.py.

Modelling conventions:
 * Python paths (pathlib.Path) are modelled as lists of components
   (FPath := List String); str concatenation folder / name becomes list
   append, Path.parent is dropLast, Path.name is the last component, and
   Path.relative_to(root) succeeds exactly when root is a component prefix.
 * Python dicts are modelled as insertion-ordered association lists with
   replace-in-place on existing keys (the semantics of CPython dicts);
   Python sets used only for membership are modelled as lists with
   membership-guarded insertion.
 * The recursive DFS of LinkRegistry._has_path_to terminates in Python
   because the visited set grows; the embedding makes this explicit with a
   fuel argument, and the fuel chosen by wouldCreateCycle is proved
   sufficient.
-/

namespace BlenderDoc

/-- Paths are lists of components (the shallow model of pathlib.Path). -/
abbrev FPath := List String

section RegistryDefs

variable {α : Type} [DecidableEq α]

/-- Reading `m.get(k, set())` from an insertion-ordered dict of sets,
modelled as an association list of lists. -/
def lookupMap (m : List (α × List α)) (k : α) : List α :=
  match m with
  | [] => []
  | (k₂, vs) :: rest => if k₂ = k then vs else lookupMap rest k

/-- `m.setdefault(k, set()).add(v)`: add v to the set stored at k,
creating the entry if the key is absent. -/
def addToMap (m : List (α × List α)) (k v : α) : List (α × List α) :=
  match m with
  | [] => [(k, [v])]
  | (k₂, vs) :: rest =>
    if k₂ = k then (k₂, if v ∈ vs then vs else vs ++ [v]) :: rest
    else (k₂, vs) :: addToMap rest k v

/-- All nodes mentioned by the adjacency map (keys and targets), deduplicated;
used only to size the DFS fuel. -/
def allNodes (m : List (α × List α)) : List α :=
  (m.map Prod.fst ++ (m.map Prod.snd).flatten).dedup

/-- LinkRegistry._has_path_to: depth-first search from start looking for
goal over the forward edges, sharing one visitation set (threaded through,
mirroring the mutable self._visited).  The Python recursion terminates
because visited grows; fuel makes that explicit. -/
def hasPathTo (links : List (α × List α)) : Nat → α → α → List α → Bool × List α
  | 0, _, _, visited => (false, visited)
  | Nat.succ fuel, start, goal, visited =>
    if start = goal then (true, visited)
    else if start ∈ visited then (false, visited)
    else
      (lookupMap links start).foldl
        (fun acc n => if acc.1 then acc else hasPathTo links fuel n goal acc.2)
        (false, start :: visited)

/-- The inner neighbour loop of the DFS (for next_node in self._links.get(start)),
named so lemmas can speak about it. -/
def dfsFold (links : List (α × List α)) (fuel : Nat) (goal : α)
    (ns : List α) (acc : Bool × List α) : Bool × List α :=
  ns.foldl (fun acc n => if acc.1 then acc else hasPathTo links fuel n goal acc.2) acc

/-- Fuel sufficient for the DFS on the current edge set. -/
def dfsFuel (links : List (α × List α)) : Nat := (allNodes links).length + 1

end RegistryDefs

/-- LinkRegistry state: forward map, reverse map, and the shared _visited
set left over from the last cycle check. -/
structure LinkRegistry (α : Type) where
  links : List (α × List α) := []
  revLinks : List (α × List α) := []
  visited : List α := []
deriving DecidableEq

section RegistryOps

variable {α : Type} [DecidableEq α]

/-- LinkRegistry._would_create_cycle: clear the shared visited set, then DFS
from the proposed target looking for the proposed source; returns the result
together with the visitation set the search leaves behind. -/
def wouldCreateCycle (R : LinkRegistry α) (source target : α) : Bool × List α :=
  hasPathTo R.links (dfsFuel R.links) target source []

/-- LinkRegistry.add_link: reject (returning false, maps untouched) when the
check finds a path target → … → source; otherwise commit the forward and the
reverse edge. -/
def addLink (R : LinkRegistry α) (source target : α) : Bool × LinkRegistry α :=
  let c := wouldCreateCycle R source target
  if c.1 then (false, { R with visited := c.2 })
  else
    (true,
      { links := addToMap R.links source target,
        revLinks := addToMap R.revLinks target source,
        visited := c.2 })

/-- LinkRegistry.get_links. -/
def getLinks (R : LinkRegistry α) (source : α) : List α := lookupMap R.links source

/-- LinkRegistry.get_reverse_links. -/
def getReverseLinks (R : LinkRegistry α) (target : α) : List α := lookupMap R.revLinks target

/-- One forward edge of the registry's adjacency map. -/
def EdgeRel (links : List (α × List α)) (a b : α) : Prop := b ∈ lookupMap links a

/-- A path over the registry's forward edges (reflexive-transitive closure). -/
def Reaches (links : List (α × List α)) : α → α → Prop :=
  Relation.ReflTransGen (EdgeRel links)

/-- A path from a to b all of whose nodes strictly before b avoid V; this is
exactly the kind of path the shared-visited DFS can still discover. -/
inductive PathAvoid (links : List (α × List α)) (V : List α) : α → α → Prop
  | refl (a : α) : PathAvoid links V a a
  | step {a b c : α} : a ∉ V → EdgeRel links a b → PathAvoid links V b c →
      PathAvoid links V a c

/-- Every node the DFS newly visits has all its successors visited too. -/
def NewClosed (links : List (α × List α)) (V R : List α) : Prop :=
  ∀ u, u ∈ R → u ∉ V → ∀ n, n ∈ lookupMap links u → n ∈ R

/-- Number of candidate DFS nodes not yet visited (the termination measure). -/
def unvisitedCount (links : List (α × List α)) (V : List α) : Nat :=
  ((allNodes links).filter (fun x => decide (x ∉ V))).length

end RegistryOps

/-- The spec-side registry of §4.2: identical except that no visitation set
survives between calls (used to state the refinement claim C8). -/
structure LinkRegistrySpec (α : Type) where
  links : List (α × List α) := []
  revLinks : List (α × List α) := []
deriving DecidableEq

section RegistrySpecOps

variable {α : Type} [DecidableEq α]

/-- add_link as §4.2 words it: the cycle-check DFS allocates a fresh
visitation set per call and nothing of it is retained. -/
def addLinkFresh (R : LinkRegistrySpec α) (source target : α) : Bool × LinkRegistrySpec α :=
  if (hasPathTo R.links (dfsFuel R.links) target source []).1 then (false, R)
  else
    (true,
      { links := addToMap R.links source target,
        revLinks := addToMap R.revLinks target source })

/-- Forget the shared visitation set. -/
def eraseVisited (R : LinkRegistry α) : LinkRegistrySpec α :=
  { links := R.links, revLinks := R.revLinks }

/-- Run a sequence of add_link calls on the implementation registry,
collecting the boolean results. -/
def runAddLinks (R : LinkRegistry α) : List (α × α) → List Bool × LinkRegistry α
  | [] => ([], R)
  | (s, t) :: ops =>
    let r := addLink R s t
    let rest := runAddLinks r.2 ops
    (r.1 :: rest.1, rest.2)

/-- Run the same sequence on the fresh-visitation-set registry. -/
def runAddLinksFresh (R : LinkRegistrySpec α) : List (α × α) → List Bool × LinkRegistrySpec α
  | [] => ([], R)
  | (s, t) :: ops =>
    let r := addLinkFresh R s t
    let rest := runAddLinksFresh r.2 ops
    (r.1 :: rest.1, rest.2)

end RegistrySpecOps

/-- FileEntry (data_structures.py).  path is derived from folder and name in
__post_init__; metadata is an open dict of which only the
external_links list matters to the verified claims, so it is modelled by
that component; links holds the dependency entries, modelled by their paths
(dataclass equality on FileEntry collapses to path equality for entries
synthesized by the processor, which keys everything by path). -/
structure FileEntry where
  name : String
  folder : FPath
  size : Nat
  fileType : String
  externalLinks : List FPath := []
  links : List FPath := []
  processed : Bool := false
deriving DecidableEq

/-- FileEntry.path = folder / name. -/
def FileEntry.path (e : FileEntry) : FPath := e.folder ++ [e.name]

/-- FileEntry.add_link: set-like append of a dependency. -/
def FileEntry.addLinkTo (e : FileEntry) (p : FPath) : FileEntry :=
  if p ∈ e.links then e else { e with links := e.links ++ [p] }

/-- Replace-in-place insertion of a keyed record, appending new keys at the
end: the update semantics of a CPython dict. -/
def insertReplace {κ ν : Type} [DecidableEq κ] (m : List (κ × ν)) (k : κ) (v : ν) :
    List (κ × ν) :=
  match m with
  | [] => [(k, v)]
  | (k₂, v₂) :: rest =>
    if k₂ = k then (k, v) :: rest else (k₂, v₂) :: insertReplace rest k v

/-- dict.setdefault(k, []).append(v): the index-update idiom of
MetadataStore.add_entry. -/
def appendAtKey {κ ν : Type} [DecidableEq κ] (m : List (κ × List ν)) (k : κ) (v : ν) :
    List (κ × List ν) :=
  match m with
  | [] => [(k, [v])]
  | (k₂, vs) :: rest =>
    if k₂ = k then (k₂, vs ++ [v]) :: rest else (k₂, vs) :: appendAtKey rest k v

/-- Association-list lookup with a list default, the d.get(k, []) read used
by get_by_type / get_by_folder. -/
def lookupListMap {κ ν : Type} [DecidableEq κ] (m : List (κ × List ν)) (k : κ) : List ν :=
  match m with
  | [] => []
  | (k₂, vs) :: rest => if k₂ = k then vs else lookupListMap rest k

/-- MetadataStore (data_structures.py): primary dict by path plus the
one-to-many type and folder indices. -/
structure MetadataStore where
  entries : List (FPath × FileEntry) := []
  byType : List (String × List FileEntry) := []
  byFolder : List (FPath × List FileEntry) := []
  rootFolder : Option FPath := none
deriving DecidableEq

/-- MetadataStore.add_entry: replace by path in the primary dict, append
unconditionally to the type and folder indices. -/
def MetadataStore.addEntry (st : MetadataStore) (e : FileEntry) : MetadataStore :=
  { st with
    entries := insertReplace st.entries e.path e,
    byType := appendAtKey st.byType e.fileType e,
    byFolder := appendAtKey st.byFolder e.folder e }

/-- Association-list lookup of a keyed record (dict.get). -/
def lookupEntry {κ ν : Type} [DecidableEq κ] (m : List (κ × ν)) (k : κ) : Option ν :=
  match m with
  | [] => none
  | (k₂, v) :: rest => if k₂ = k then some v else lookupEntry rest k

/-- MetadataStore.get_entry. -/
def MetadataStore.getEntry (st : MetadataStore) (p : FPath) : Option FileEntry :=
  lookupEntry st.entries p

/-- MetadataStore.get_by_type. -/
def MetadataStore.getByType (st : MetadataStore) (t : String) : List FileEntry :=
  lookupListMap st.byType t

/-- MetadataStore.get_by_folder. -/
def MetadataStore.getByFolder (st : MetadataStore) (f : FPath) : List FileEntry :=
  lookupListMap st.byFolder f

/-- MetadataStore.get_all_entries: values of the primary dict in insertion
order. -/
def MetadataStore.getAllEntries (st : MetadataStore) : List FileEntry :=
  st.entries.map Prod.snd

/-- The total_entries component of MetadataStore.stats():
len(self._entries). -/
def MetadataStore.statsTotalEntries (st : MetadataStore) : Nat := st.entries.length

/-- FileScanner.LEAF_TYPES. -/
def leafTypes : List String :=
  ["jpg", "jpeg", "png", "tiff", "tif", "exr", "hdr", "bmp", "gif", "webp",
   "mp3", "wav", "flac", "aac", "ogg", "aiff",
   "txt", "md", "rst", "csv", "json", "xml", "yaml", "yml",
   "ttf", "otf", "woff", "woff2",
   "pdf", "obj", "fbx", "usd", "usda", "glb", "gltf"]

/-- FileScanner.is_leaf_node: blend files are never leaves, otherwise
membership in LEAF_TYPES. -/
def isLeafNode (e : FileEntry) : Bool :=
  if e.fileType = "blend" then false else decide (e.fileType ∈ leafTypes)

/-- FileScanner.is_blend_file. -/
def isBlendFile (e : FileEntry) : Bool := decide (e.fileType = "blend")

/-- The filesystem and external-tool collaborators consumed by
FileProcessor, abstracted as oracles: extract_blend_dependencies,
Path.exists, stat (None models OSError / not-a-file), and
FileScanner._get_file_type. -/
structure Collaborators where
  extractDeps : FPath → List FPath
  existsOnDisk : FPath → Bool
  statSize : FPath → Option Nat
  fileTypeOf : String → String

/-- FileProcessor._is_in_root_folder: Path.relative_to(root) succeeds
exactly when root is a component prefix of the path. -/
def isInRootFolder (root p : FPath) : Bool := root.isPrefixOf p

/-- FileProcessor._create_entry_for_file: None on a non-existing path, a
non-regular file or a stat failure (all folded into statSize returning
none), else an entry rebuilt from the path's parent and name. -/
def createEntryForFile (C : Collaborators) (p : FPath) : Option FileEntry :=
  if C.existsOnDisk p then
    match C.statSize p with
    | some sz =>
      some { name := p.getLastD "", folder := p.dropLast, size := sz,
             fileType := C.fileTypeOf (p.getLastD "") }
    | none => none
  else none

/-- The whole-run state of FileProcessor: the store, the registry (keyed by
path), the processed-path set, the completion-ordered output list, and the
worklist queue. -/
structure FPState where
  store : MetadataStore
  registry : LinkRegistry FPath
  processedPaths : List FPath := []
  outputList : List FileEntry := []
  queue : List FileEntry := []
deriving DecidableEq

/-- The body of the external-path loop of FileProcessor._process_blend_file
for one reported path p, threading the current entry and the run state. -/
def processExternalOne (C : Collaborators) (root : FPath) (followExternal : Bool)
    (ep : FileEntry × FPState) (p : FPath) : FileEntry × FPState :=
  let e := ep.1
  let s := ep.2
  if !followExternal && !isInRootFolder root p then
    ({ e with externalLinks := e.externalLinks ++ [p] }, s)
  else if !C.existsOnDisk p then ep
  else if p ∈ s.processedPaths then ep
  else
    match s.store.getEntry p with
    | some existing =>
      (e.addLinkTo existing.path,
       { s with registry := (addLink s.registry e.path p).2 })
    | none =>
      match createEntryForFile C p with
      | some newEntry =>
        (e.addLinkTo newEntry.path,
         { s with
           store := s.store.addEntry newEntry,
           queue := s.queue ++ [newEntry],
           registry := (addLink s.registry e.path p).2 })
      | none => ep

/-- FileProcessor._process_blend_file: when the Blender collaborator is
available, fold the external-path loop over the reported dependencies (the
scene-metadata extraction touches only the entry's metadata dict and is
outside the modelled fields). -/
def processBlendFile (C : Collaborators) (root : FPath) (followExternal : Bool)
    (blenderAvailable : Bool) (e : FileEntry) (s : FPState) : FileEntry × FPState :=
  if blenderAvailable then
    (C.extractDeps e.path).foldl (processExternalOne C root followExternal) (e, s)
  else (e, s)

/-- The per-entry classification step of FileProcessor.process_stack: leaves
and unknown files only get metadata extracted (outside the modelled
fields); blend files run the dependency expansion. -/
def processEntry (C : Collaborators) (root : FPath) (followExternal : Bool)
    (blenderAvailable : Bool) (e : FileEntry) (s : FPState) : FileEntry × FPState :=
  if isLeafNode e then (e, s)
  else if isBlendFile e then processBlendFile C root followExternal blenderAvailable e s
  else (e, s)

/-- The handled-entry epilogue of one loop iteration of process_stack:
classify and expand the entry, mark it processed, append it to the output
list. -/
def processOne (C : Collaborators) (root : FPath) (followExternal : Bool)
    (blenderAvailable : Bool) (e : FileEntry) (s : FPState) : FPState :=
  let r := processEntry C root followExternal blenderAvailable e s
  { r.2 with outputList := r.2.outputList ++ [{ r.1 with processed := true }] }

/-- FileProcessor.process_stack: drain the worklist, skipping entries whose
path is already in the processed-path set, marking each handled entry
processed and appending it to the output list.  The Python loop terminates
because the filesystem is finite; fuel makes the loop a total function while
leaving every finite prefix of the run intact. -/
def processStack (C : Collaborators) (root : FPath) (followExternal : Bool)
    (blenderAvailable : Bool) : Nat → FPState → FPState
  | 0, s => s
  | Nat.succ fuel, s =>
    match s.queue with
    | [] => s
    | e :: rest =>
      if e.path ∈ s.processedPaths then
        processStack C root followExternal blenderAvailable fuel { s with queue := rest }
      else
        processStack C root followExternal blenderAvailable fuel
          (processOne C root followExternal blenderAvailable e
            { s with queue := rest, processedPaths := s.processedPaths ++ [e.path] })

/-- Edge payload of the built digraph: multiplicity and the contributing
(source file name, target file name) pairs. -/
structure EdgeData where
  weight : Nat
  fileLinks : List (String × String)
deriving DecidableEq

/-- A networkx DiGraph shallowly: insertion-ordered node and edge
association lists (ν is the node-attribute record of the chosen mode). -/
structure Digraph (ν : Type) where
  nodes : List (String × ν) := []
  edges : List ((String × String) × EdgeData) := []
deriving DecidableEq

/-- Node attributes of the folder-hierarchy mode. -/
structure FolderNodeData where
  folderPath : FPath
  fileCount : Nat
  totalSize : Nat
deriving DecidableEq

/-- nx.DiGraph.add_node: insert or overwrite the node's attributes. -/
def addNode {ν : Type} (g : Digraph ν) (id : String) (data : ν) : Digraph ν :=
  { g with nodes := insertReplace g.nodes id data }

/-- Weight lookup on the edge list (0 when the edge is absent). -/
def edgeWeightList (es : List ((String × String) × EdgeData)) (k : String × String) : Nat :=
  match es with
  | [] => 0
  | (k₂, d) :: rest => if k₂ = k then d.weight else edgeWeightList rest k

/-- Weight of an edge of the digraph (0 when absent). -/
def edgeWeight {ν : Type} (g : Digraph ν) (s t : String) : Nat :=
  edgeWeightList g.edges (s, t)

/-- The recorded file_links of an edge ([] when the edge is absent). -/
def edgeFileLinksList (es : List ((String × String) × EdgeData)) (k : String × String) :
    List (String × String) :=
  match es with
  | [] => []
  | (k₂, d) :: rest => if k₂ = k then d.fileLinks else edgeFileLinksList rest k

/-- file_links of an edge of the digraph. -/
def edgeFileLinks {ν : Type} (g : Digraph ν) (s t : String) : List (String × String) :=
  edgeFileLinksList g.edges (s, t)

/-- The add-or-increment edge update of digraph_builder.py on the edge
association list: an existing edge gets weight += 1 and the pair appended to
its file_links, an absent edge is created with weight 1 and that single
pair. -/
def bumpEdge (es : List ((String × String) × EdgeData)) (k : String × String)
    (pair : String × String) : List ((String × String) × EdgeData) :=
  match es with
  | [] => [(k, { weight := 1, fileLinks := [pair] })]
  | (k₂, d) :: rest =>
    if k₂ = k then
      (k₂, { weight := d.weight + 1, fileLinks := d.fileLinks ++ [pair] }) :: rest
    else (k₂, d) :: bumpEdge rest k pair

/-- The has_edge / add_edge / weight += 1 sequence of digraph_builder.py. -/
def addOrIncEdge {ν : Type} (g : Digraph ν) (s t : String) (pair : String × String) :
    Digraph ν :=
  { g with edges := bumpEdge g.edges (s, t) pair }

/-- DigraphBuilder._get_node_id: path relative to root joined with '/',
'root' for the root folder itself, and the bare folder name when the folder
lies outside the root. -/
def getNodeId (folder root : FPath) : String :=
  if isInRootFolder root folder then
    let rel := folder.drop root.length
    if rel = [] then "root" else String.intercalate "/" rel
  else folder.getLastD ""

/-- First pass of DigraphBuilder.build_by_folder_hierarchy: group the store's
entries by containing folder, in insertion order. -/
def groupByFolder (es : List FileEntry) : List (FPath × List FileEntry) :=
  es.foldl (fun g e => appendAtKey g e.folder e) []

/-- Second-pass loop body: one file-to-file link of the current entry.  The
pair (source folder id, target folder id) is consulted against and then added
to the processed_edges set, so only the first link of an ordered folder pair
ever reaches the add-or-increment update. -/
def folderEdgeStep (root : FPath) (e : FileEntry)
    (acc : Digraph FolderNodeData × List (String × String)) (p : FPath) :
    Digraph FolderNodeData × List (String × String) :=
  let srcF := getNodeId e.folder root
  let tgtF := getNodeId p.dropLast root
  if srcF = tgtF then acc
  else if (srcF, tgtF) ∈ acc.2 then acc
  else (addOrIncEdge acc.1 srcF tgtF (e.name, p.getLastD ""), acc.2 ++ [(srcF, tgtF)])

/-- DigraphBuilder.build_by_folder_hierarchy. -/
def buildByFolderHierarchy (st : MetadataStore) (root : FPath) :
    Digraph FolderNodeData :=
  let groups := groupByFolder st.getAllEntries
  let g₁ : Digraph FolderNodeData :=
    groups.foldl (fun g kv =>
      addNode g (getNodeId kv.1 root)
        { folderPath := kv.1, fileCount := kv.2.length,
          totalSize := (kv.2.map FileEntry.size).sum }) {}
  (st.getAllEntries.foldl (fun acc e => e.links.foldl (folderEdgeStep root e) acc)
    (g₁, [])).1

/-- The invariant of build_by_folder_hierarchy's second pass: an ordered
folder pair in processed_edges carries an edge of weight exactly 1, a pair
not in it carries no edge. -/
def FolderPassInv (acc : Digraph FolderNodeData × List (String × String)) : Prop :=
  (∀ k, k ∈ acc.2 → edgeWeightList acc.1.edges k = 1) ∧
  (∀ k, k ∉ acc.2 → edgeWeightList acc.1.edges k = 0)

/-- Node attributes of the file-level mode (§4.4): the folder_group tag for
visual clustering plus size, type and label. -/
structure FileNodeData where
  folderGroup : String
  size : Nat
  fileType : String
  label : String
deriving DecidableEq

/-- MetadataStore.get_relative_path as a node id: the path relative to the
root joined with '/', falling back to the absolute path outside the root. -/
def relPathId (p root : FPath) : String :=
  if isInRootFolder root p then String.intercalate "/" (p.drop root.length)
  else String.intercalate "/" p

/-- Modelled from the spec: DigraphBuilder's file-level build mode (§4.4
File-level mode) is not present under src/ — only its consumer, the PDF
renderer that reads per-file node attributes and titles the drawing
"File-Level", is.  Following the spec's words: one node per file keyed by
relative path and tagged with folder_group, size, type and label; every
file-to-file link becomes an edge between file nodes, repeated links between
the same ordered pair collapsing into one edge whose weight is the
occurrence count. -/
def buildByFileLevel (st : MetadataStore) (root : FPath) : Digraph FileNodeData :=
  let g₁ : Digraph FileNodeData :=
    st.getAllEntries.foldl (fun g e =>
      addNode g (relPathId e.path root)
        { folderGroup := getNodeId e.folder root, size := e.size,
          fileType := e.fileType, label := e.name }) {}
  st.getAllEntries.foldl (fun g e =>
    e.links.foldl (fun g p =>
      addOrIncEdge g (relPathId e.path root) (relPathId p root)
        (e.name, p.getLastD "")) g) g₁

/-- The number of (entry, link) occurrences whose endpoint ids are (u, v):
what §4.4 calls the occurrence count of the ordered pair. -/
def linkOccurrences (st : MetadataStore) (root : FPath) (u v : String) : Nat :=
  (st.getAllEntries.map (fun e =>
    (e.links.filter (fun p =>
      decide (relPathId e.path root = u ∧ relPathId p root = v))).length)).sum

/-- A value of the statistics dict: int, float (exact rational here) or
bool. -/
inductive StatValue
  | nat (n : Nat)
  | rat (q : Rat)
  | bool (b : Bool)
deriving DecidableEq

/-- DigraphBuilder.get_statistics: the dict literal of digraph_builder.py,
with the three networkx metrics (nx.density, nx.is_directed_acyclic_graph,
nx.number_weakly_connected_components) abstracted as library oracles. -/
def getStatistics {ν : Type} (density : Digraph ν → Rat) (isDag : Digraph ν → Bool)
    (ncc : Digraph ν → Nat) (g : Digraph ν) : List (String × StatValue) :=
  [("node_count", StatValue.nat g.nodes.length),
   ("edge_count", StatValue.nat g.edges.length),
   ("density", StatValue.rat (density g)),
   ("is_dag", StatValue.bool (isDag g)),
   ("connected_components", StatValue.nat (ncc g))]

/-- A Python dict subscript stats[k]: some value, or none — a KeyError. -/
def dictLookup {ν : Type} (m : List (String × ν)) (k : String) : Option ν :=
  lookupEntry m k

/-- The two statistics reads of process_project's summary step (main.py:
stats['file_count'] and stats['link_count']). -/
def summaryStatReads {ν : Type} (density : Digraph ν → Rat) (isDag : Digraph ν → Bool)
    (ncc : Digraph ν → Nat) (g : Digraph ν) : Option StatValue × Option StatValue :=
  let stats := getStatistics density isDag ncc g
  (dictLookup stats "file_count", dictLookup stats "link_count")

/-! Concrete fixtures used by witnesses and counterexamples. -/

/-- Collaborator oracle for concrete runs: every path exists, stats succeed. -/
def fixC : Collaborators :=
  { extractDeps := fun _ => [], existsOnDisk := fun _ => true,
    statSize := fun _ => some 4, fileTypeOf := fun _ => "png" }

/-- A container entry under the root folder r. -/
def fixBlend : FileEntry :=
  { name := "scene.blend", folder := ["r"], size := 10, fileType := "blend" }

/-- A texture path under the root. -/
def fixTexPath : FPath := ["r", "tex.png"]

/-- Processor state in which fixTexPath is already in the processed-path
set (as after the entry for it was dequeued earlier). -/
def fixStateProcessed : FPState :=
  { store := {}, registry := {}, processedPaths := [["r", "tex.png"]] }

/-- Processor state with empty store, registry and processed-path set. -/
def fixStateEmpty : FPState :=
  { store := {}, registry := {} }

/-- A store entry for the texture. -/
def fixTexEntry : FileEntry :=
  { name := "tex.png", folder := ["r"], size := 4, fileType := "png" }

/-- Processor state whose store already holds the texture entry and whose
processed-path set does not. -/
def fixStateWithTex : FPState :=
  { store := MetadataStore.addEntry {} fixTexEntry, registry := {} }

/-- Folder-mode failing input: two files of folder A each linking to the
same file of folder B. -/
def fixA1 : FileEntry :=
  { name := "a1.blend", folder := ["r", "A"], size := 1, fileType := "blend",
    links := [["r", "B", "b.png"]] }

/-- Second file of folder A with the same cross-folder link. -/
def fixA2 : FileEntry :=
  { name := "a2.blend", folder := ["r", "A"], size := 1, fileType := "blend",
    links := [["r", "B", "b.png"]] }

/-- The linked file of folder B. -/
def fixB : FileEntry :=
  { name := "b.png", folder := ["r", "B"], size := 1, fileType := "png" }

/-- The store of the folder-mode failing input. -/
def fixFolderStore : MetadataStore :=
  [fixA1, fixA2, fixB].foldl MetadataStore.addEntry {}

/-- File-mode fixture: one file linked twice to the same target (two
independent discovery events). -/
def fixFileA : FileEntry :=
  { name := "a.blend", folder := ["r"], size := 1, fileType := "blend",
    links := [["r", "b.png"], ["r", "b.png"]] }

/-- The target file of the file-mode fixture. -/
def fixFileB : FileEntry :=
  { name := "b.png", folder := ["r"], size := 2, fileType := "png" }

/-- The store of the file-mode fixture. -/
def fixFileStore : MetadataStore :=
  [fixFileA, fixFileB].foldl MetadataStore.addEntry {}

/-! ## Lemmas: the cycle-check DFS of LinkRegistry -/

section RegistryLemmas

variable {α : Type} [DecidableEq α] {links : List (α × List α)}

theorem hasPathTo_succ (fuel : Nat) (s g : α) (V : List α) :
    hasPathTo links (fuel + 1) s g V =
      if s = g then (true, V)
      else if s ∈ V then (false, V)
      else dfsFold links fuel g (lookupMap links s) (false, s :: V) := rfl

theorem dfsFold_nil (fuel : Nat) (g : α) (acc : Bool × List α) :
    dfsFold links fuel g [] acc = acc := rfl

theorem dfsFold_cons (fuel : Nat) (g n : α) (ns : List α) (acc : Bool × List α) :
    dfsFold links fuel g (n :: ns) acc =
      dfsFold links fuel g ns (if acc.1 then acc else hasPathTo links fuel n g acc.2) := rfl

theorem dfsFold_of_true (fuel : Nat) (g : α) (ns : List α) (acc : Bool × List α)
    (h : acc.1 = true) : dfsFold links fuel g ns acc = acc := by
  induction ns with
  | nil => rfl
  | cons n ns ih => rw [dfsFold_cons, h]; simpa using ih

theorem dfsFold_subset (fuel : Nat) (g : α)
    (H : ∀ n V, V ⊆ (hasPathTo links fuel n g V).2) :
    ∀ ns (acc : Bool × List α), acc.2 ⊆ (dfsFold links fuel g ns acc).2 := by
  intro ns
  induction ns with
  | nil => intro acc; exact fun x hx => hx
  | cons n ns ih =>
    intro acc
    rw [dfsFold_cons]
    refine Function.swap List.Subset.trans (ih _) ?_
    cases hb : acc.1
    · simpa [hb] using H n acc.2
    · simp [hb]

theorem hasPathTo_subset :
    ∀ (fuel : Nat) (s g : α) (V : List α), V ⊆ (hasPathTo links fuel s g V).2 := by
  intro fuel
  induction fuel with
  | zero => intro s g V; exact fun x hx => hx
  | succ fuel ih =>
    intro s g V
    rw [hasPathTo_succ]
    by_cases h1 : s = g
    · simp [h1]
    · by_cases h2 : s ∈ V
      · simp [h1, h2]
      · simp only [h1, h2, if_false]
        exact List.Subset.trans (List.subset_cons_self s V)
          (dfsFold_subset fuel g (fun n W => ih n g W) (lookupMap links s) (false, s :: V))

theorem dfsFold_sound (fuel : Nat) (g : α)
    (H : ∀ n V, (hasPathTo links fuel n g V).1 = true → Reaches links n g) :
    ∀ ns (acc : Bool × List α), (dfsFold links fuel g ns acc).1 = true →
      acc.1 = true ∨ ∃ n ∈ ns, Reaches links n g := by
  intro ns
  induction ns with
  | nil => intro acc h; exact Or.inl h
  | cons n ns ih =>
    intro acc h
    rw [dfsFold_cons] at h
    rcases ih _ h with h₂ | ⟨m, hm, hr⟩
    · cases hb : acc.1
      · simp only [hb, Bool.false_eq_true, if_false] at h₂
        exact Or.inr ⟨n, List.mem_cons_self n ns, H n acc.2 h₂⟩
      · exact Or.inl rfl
    · exact Or.inr ⟨m, List.mem_cons_of_mem n hm, hr⟩

theorem hasPathTo_sound :
    ∀ (fuel : Nat) (s g : α) (V : List α),
      (hasPathTo links fuel s g V).1 = true → Reaches links s g := by
  intro fuel
  induction fuel with
  | zero => intro s g V h; exact absurd h (by simp [hasPathTo])
  | succ fuel ih =>
    intro s g V h
    rw [hasPathTo_succ] at h
    by_cases h1 : s = g
    · exact h1 ▸ Relation.ReflTransGen.refl
    · by_cases h2 : s ∈ V
      · simp [h1, h2] at h
      · simp only [h1, h2, if_false] at h
        rcases dfsFold_sound fuel g (fun n W => ih n g W) _ _ h with hacc | ⟨n, hn, hr⟩
        · exact absurd hacc (by simp)
        · exact Relation.ReflTransGen.head hn hr

theorem dfsFold_goal (fuel : Nat) (g : α)
    (H : ∀ n V, g ∉ V → g ∉ (hasPathTo links fuel n g V).2) :
    ∀ ns (acc : Bool × List α), g ∉ acc.2 → g ∉ (dfsFold links fuel g ns acc).2 := by
  intro ns
  induction ns with
  | nil => intro acc h; exact h
  | cons n ns ih =>
    intro acc h
    rw [dfsFold_cons]
    refine ih _ ?_
    cases hb : acc.1
    · simpa [hb] using H n acc.2 h
    · simpa [hb] using h

theorem hasPathTo_goal :
    ∀ (fuel : Nat) (s g : α) (V : List α), g ∉ V → g ∉ (hasPathTo links fuel s g V).2 := by
  intro fuel
  induction fuel with
  | zero => intro s g V h; exact h
  | succ fuel ih =>
    intro s g V h
    rw [hasPathTo_succ]
    by_cases h1 : s = g
    · simpa [h1] using h
    · by_cases h2 : s ∈ V
      · simpa [h1, h2] using h
      · simp only [h1, h2, if_false]
        refine dfsFold_goal fuel g (fun n W => ih n g W) _ _ ?_
        intro hmem
        rcases List.mem_cons.mp hmem with he | hV
        · exact h1 he.symm
        · exact h hV

theorem newClosed_refl (V : List α) : NewClosed links V V :=
  fun _ hu hnu => absurd hu hnu

theorem newClosed_comp {V₁ V₂ V₃ : List α}
    (c12 : NewClosed links V₁ V₂) (c23 : NewClosed links V₂ V₃) (h23 : V₂ ⊆ V₃) :
    NewClosed links V₁ V₃ := by
  intro u hu3 hnu1 n hn
  by_cases hu2 : u ∈ V₂
  · exact h23 (c12 u hu2 hnu1 n hn)
  · exact c23 u hu3 hu2 n hn

omit [DecidableEq α] in
theorem length_filter_le_of_imp {p q : α → Bool} (h : ∀ a, p a = true → q a = true) :
    ∀ l : List α, (l.filter p).length ≤ (l.filter q).length := by
  intro l
  induction l with
  | nil => exact Nat.le_refl _
  | cons a l ih =>
    cases hp : p a
    · rw [List.filter_cons_of_neg (by simp [hp])]
      cases hq : q a
      · rw [List.filter_cons_of_neg (by simp [hq])]
        exact ih
      · rw [List.filter_cons_of_pos hq, List.length_cons]
        exact Nat.le_succ_of_le ih
    · rw [List.filter_cons_of_pos hp, List.filter_cons_of_pos (h a hp),
        List.length_cons, List.length_cons]
      exact Nat.succ_le_succ ih

theorem unvisitedCount_mono {V W : List α} (h : V ⊆ W) :
    unvisitedCount links W ≤ unvisitedCount links V := by
  refine length_filter_le_of_imp ?_ _
  intro a ha
  simp only [decide_eq_true_eq] at ha ⊢
  exact fun hmem => ha (h hmem)

theorem unvisitedCount_lt {s : α} {V : List α}
    (hs : s ∈ allNodes links) (hv : s ∉ V) :
    unvisitedCount links (s :: V) < unvisitedCount links V := by
  unfold unvisitedCount
  revert hs
  induction allNodes links with
  | nil => intro hs; exact absurd hs (List.not_mem_nil s)
  | cons a l ih =>
    intro hs
    by_cases ha : a = s
    · subst ha
      rw [List.filter_cons_of_neg (by simp), List.filter_cons_of_pos (by simpa using hv),
        List.length_cons]
      have hle : ((l.filter fun x => decide (x ∉ a :: V)).length) ≤
          ((l.filter fun x => decide (x ∉ V)).length) := by
        refine length_filter_le_of_imp ?_ l
        intro b hb
        simp only [decide_eq_true_eq, List.mem_cons] at hb ⊢
        exact fun hm => hb (Or.inr hm)
      omega
    · have hs₂ : s ∈ l := by
        rcases List.mem_cons.mp hs with he | hm
        · exact absurd he.symm ha
        · exact hm
      by_cases haV : a ∈ V
      · rw [List.filter_cons_of_neg (by simp [List.mem_cons, haV]),
          List.filter_cons_of_neg (by simpa using haV)]
        exact ih hs₂
      · have hL : a ∉ s :: V := by
          rw [List.mem_cons]
          rintro (he | hm)
          · exact ha he
          · exact haV hm
        rw [List.filter_cons_of_pos (by simpa using hL),
          List.filter_cons_of_pos (by simpa using haV), List.length_cons, List.length_cons]
        exact Nat.succ_lt_succ (ih hs₂)

theorem mem_flatten_of_mem_lookup {n s : α} :
    ∀ m : List (α × List α), n ∈ lookupMap m s → n ∈ (m.map Prod.snd).flatten := by
  intro m
  induction m with
  | nil => intro h; exact absurd h (List.not_mem_nil n)
  | cons kv rest ih =>
    intro h
    rw [lookupMap] at h
    by_cases hk : kv.1 = s
    · rw [if_pos hk] at h
      exact List.mem_flatten.mpr
        ⟨kv.2, List.mem_map_of_mem Prod.snd (List.mem_cons_self kv rest), h⟩
    · rw [if_neg hk] at h
      have := ih h
      rcases List.mem_flatten.mp this with ⟨l, hl, hnl⟩
      exact List.mem_flatten.mpr ⟨l, by
        rcases List.mem_map.mp hl with ⟨kv₂, hkv₂, he⟩
        exact he ▸ List.mem_map_of_mem Prod.snd (List.mem_cons_of_mem kv hkv₂), hnl⟩

theorem mem_allNodes_of_mem_lookup {n s : α}
    (h : n ∈ lookupMap links s) : n ∈ allNodes links := by
  unfold allNodes
  rw [List.mem_dedup, List.mem_append]
  exact Or.inr (mem_flatten_of_mem_lookup links h)

theorem mem_fst_of_lookup_ne_nil {s : α} :
    ∀ m : List (α × List α), lookupMap m s ≠ [] → s ∈ m.map Prod.fst := by
  intro m
  induction m with
  | nil => intro h; exact absurd rfl h
  | cons kv rest ih =>
    intro h
    rw [lookupMap] at h
    by_cases hk : kv.1 = s
    · exact List.mem_map.mpr ⟨kv, List.mem_cons_self _ _, hk⟩
    · rw [if_neg hk] at h
      exact List.mem_cons_of_mem _ (ih h)

theorem lookup_eq_nil_of_not_mem_allNodes {s : α}
    (h : s ∉ allNodes links) : lookupMap links s = [] := by
  by_cases hl : lookupMap links s = []
  · exact hl
  · exfalso
    apply h
    unfold allNodes
    rw [List.mem_dedup, List.mem_append]
    exact Or.inl (mem_fst_of_lookup_ne_nil links hl)

theorem dfsFold_false (fuel : Nat) (g : α)
    (H : ∀ s V r, s ∈ allNodes links → unvisitedCount links V < fuel → g ∉ V →
      hasPathTo links fuel s g V = (false, r) →
      s ∈ r ∧ V ⊆ r ∧ NewClosed links V r ∧ g ∉ r) :
    ∀ ns (acc : Bool × List α) r, (∀ n ∈ ns, n ∈ allNodes links) →
      unvisitedCount links acc.2 < fuel → g ∉ acc.2 → acc.1 = false →
      dfsFold links fuel g ns acc = (false, r) →
      (∀ n ∈ ns, n ∈ r) ∧ acc.2 ⊆ r ∧ NewClosed links acc.2 r ∧ g ∉ r := by
  intro ns
  induction ns with
  | nil =>
    intro acc r _ _ hg hacc heq
    rw [dfsFold_nil] at heq
    have hr : acc.2 = r := congrArg Prod.snd heq
    subst hr
    exact ⟨fun n hn => absurd hn (List.not_mem_nil n), fun x hx => hx,
      newClosed_refl acc.2, hg⟩
  | cons n ns ih =>
    intro acc r hall hfuel hg hacc heq
    rw [dfsFold_cons, hacc] at heq
    simp only [Bool.false_eq_true, if_false] at heq
    cases hstep : hasPathTo links fuel n g acc.2 with
    | mk b₁ V₁ =>
      rw [hstep] at heq
      cases b₁ with
      | true =>
        rw [dfsFold_of_true fuel g ns (true, V₁) rfl] at heq
        exact absurd (congrArg Prod.fst heq) (by simp)
      | false =>
        have hn := H n acc.2 V₁ (hall n (List.mem_cons_self n ns)) hfuel hg hstep
        obtain ⟨hnV₁, hsub₁, hcl₁, hg₁⟩ := hn
        have hfuel₁ : unvisitedCount links V₁ < fuel :=
          Nat.lt_of_le_of_lt (unvisitedCount_mono hsub₁) hfuel
        have hrest := ih (false, V₁) r
          (fun m hm => hall m (List.mem_cons_of_mem n hm)) hfuel₁ hg₁ rfl heq
        obtain ⟨hmem, hsub₂, hcl₂, hg₂⟩ := hrest
        refine ⟨?_, fun x hx => hsub₂ (hsub₁ hx), newClosed_comp hcl₁ hcl₂ hsub₂, hg₂⟩
        intro m hm
        rcases List.mem_cons.mp hm with he | hms
        · exact he ▸ hsub₂ hnV₁
        · exact hmem m hms

theorem hasPathTo_false :
    ∀ (fuel : Nat) (s g : α) (V : List α) (r : List α),
      (s ∈ allNodes links ∨ lookupMap links s = []) →
      unvisitedCount links V < fuel → g ∉ V →
      hasPathTo links fuel s g V = (false, r) →
      s ∈ r ∧ V ⊆ r ∧ NewClosed links V r ∧ g ∉ r := by
  intro fuel
  induction fuel with
  | zero => intro s g V r _ hfuel _ _; exact absurd hfuel (Nat.not_lt_zero _)
  | succ fuel ih =>
    intro s g V r hd hfuel hg heq
    rw [hasPathTo_succ] at heq
    by_cases h1 : s = g
    · rw [if_pos h1] at heq
      exact absurd (congrArg Prod.fst heq) (by simp)
    · rw [if_neg h1] at heq
      by_cases h2 : s ∈ V
      · rw [if_pos h2] at heq
        have hr : V = r := congrArg Prod.snd heq
        subst hr
        exact ⟨h2, fun x hx => hx, newClosed_refl V, hg⟩
      · rw [if_neg h2] at heq
        have hgs : g ∉ s :: V := by
          rw [List.mem_cons]
          rintro (he | hm)
          · exact h1 he.symm
          · exact hg hm
        rcases hd with hs | hnil
        · have hfuel₂ : unvisitedCount links (s :: V) < fuel :=
            Nat.lt_of_lt_of_le (unvisitedCount_lt hs h2) (Nat.lt_succ_iff.mp hfuel)
          have := dfsFold_false fuel g
            (fun n W q hn hf hgw hq => ih n g W q (Or.inl hn) hf hgw hq)
            (lookupMap links s) (false, s :: V) r
            (fun n hn => mem_allNodes_of_mem_lookup hn) hfuel₂ hgs rfl heq
          obtain ⟨hmem, hsub, hcl, hgr⟩ := this
          refine ⟨hsub (List.mem_cons_self s V), fun x hx => hsub (List.mem_cons_of_mem s hx),
            ?_, hgr⟩
          intro u hu hnu m hm
          by_cases hus : u = s
          · exact hmem m (hus ▸ hm)
          · refine hcl u hu ?_ m hm
            rw [List.mem_cons]
            rintro (he | hv)
            · exact hus he
            · exact hnu hv
        · rw [hnil, dfsFold_nil] at heq
          have hr : s :: V = r := congrArg Prod.snd heq
          subst hr
          refine ⟨List.mem_cons_self s V, fun x hx => List.mem_cons_of_mem s hx, ?_, hgs⟩
          intro u hu hnu m hm
          have hus : u = s := by
            rcases List.mem_cons.mp hu with he | hv
            · exact he
            · exact absurd hv hnu
          rw [hus, hnil] at hm
          exact absurd hm (List.not_mem_nil m)

theorem not_pathAvoid_of_closed {V r : List α} {g : α}
    (hcl : NewClosed links V r) (hg : g ∉ r) :
    ∀ s, PathAvoid links V s g → s ∈ r → False := by
  intro s hp
  revert hg
  induction hp with
  | refl a => intro hga hs; exact hga hs
  | step hnv he _ ih => intro hgc hs; exact ih hgc (hcl _ hs hnv _ he)

theorem hasPathTo_complete {fuel : Nat} {s g : α} {V : List α}
    (hd : s ∈ allNodes links ∨ lookupMap links s = [])
    (hfuel : unvisitedCount links V < fuel) (hg : g ∉ V)
    (hp : PathAvoid links V s g) :
    (hasPathTo links fuel s g V).1 = true := by
  cases hb : (hasPathTo links fuel s g V).1 with
  | true => rfl
  | false =>
    exfalso
    have heq : hasPathTo links fuel s g V = (false, (hasPathTo links fuel s g V).2) := by
      rw [← hb]
    obtain ⟨hs, _, hcl, hgr⟩ := hasPathTo_false fuel s g V _ hd hfuel hg heq
    exact not_pathAvoid_of_closed hcl hgr s hp hs

theorem pathAvoid_nil_iff {s g : α} :
    PathAvoid links [] s g ↔ Reaches links s g := by
  constructor
  · intro hp
    induction hp with
    | refl a => exact Relation.ReflTransGen.refl
    | step _ he _ ih => exact Relation.ReflTransGen.head he ih
  · intro hr
    induction hr using Relation.ReflTransGen.head_induction_on with
    | refl => exact PathAvoid.refl _
    | head he _ ih => exact PathAvoid.step (List.not_mem_nil _) he ih

theorem unvisitedCount_nil : unvisitedCount links [] = (allNodes links).length := by
  unfold unvisitedCount
  rw [List.filter_eq_self.mpr]
  intro a _
  simp

theorem wouldCreateCycle_iff (R : LinkRegistry α) (s t : α) :
    (wouldCreateCycle R s t).1 = true ↔ Reaches R.links t s := by
  constructor
  · exact fun h => hasPathTo_sound (dfsFuel R.links) t s [] h
  · intro hr
    refine hasPathTo_complete ?_ ?_ (List.not_mem_nil s) (pathAvoid_nil_iff.mpr hr)
    · by_cases ht : t ∈ allNodes R.links
      · exact Or.inl ht
      · exact Or.inr (lookup_eq_nil_of_not_mem_allNodes ht)
    · rw [unvisitedCount_nil]
      exact Nat.lt_succ_self _

theorem mem_lookup_addToMap (m : List (α × List α)) (k v : α) :
    v ∈ lookupMap (addToMap m k v) k := by
  induction m with
  | nil => simp [addToMap, lookupMap]
  | cons kv rest ih =>
    obtain ⟨k₂, vs⟩ := kv
    by_cases hk : k₂ = k
    · rw [addToMap, if_pos hk, lookupMap, if_pos hk]
      by_cases hv : v ∈ vs
      · rw [if_pos hv]; exact hv
      · rw [if_neg hv]; exact List.mem_append_right vs (List.mem_singleton.mpr rfl)
    · rw [addToMap, if_neg hk, lookupMap, if_neg hk]
      exact ih

theorem addLink_of_cycle {R : LinkRegistry α} {s t : α}
    (hc : (wouldCreateCycle R s t).1 = true) :
    addLink R s t = (false, { R with visited := (wouldCreateCycle R s t).2 }) := by
  unfold addLink
  rw [if_pos hc]

theorem addLink_of_no_cycle {R : LinkRegistry α} {s t : α}
    (hc : (wouldCreateCycle R s t).1 = false) :
    addLink R s t =
      (true,
        { links := addToMap R.links s t, revLinks := addToMap R.revLinks t s,
          visited := (wouldCreateCycle R s t).2 }) := by
  unfold addLink
  rw [if_neg (by rw [hc]; exact Bool.false_ne_true)]

end RegistryLemmas

/-! ## Theorems for the claims on LinkRegistry -/

/-- C3: add_link(source, target) returns false exactly when a path from
target back to source already exists over the pre-existing forward edges
(self-links being the one-node case, always rejected); a rejected call
mutates neither the forward nor the reverse adjacency map, and an accepted
call commits both the forward and the reverse edge. -/
theorem addLink_spec {α : Type} [DecidableEq α] (R : LinkRegistry α) (s t : α) :
    ((addLink R s t).1 = false ↔ Reaches R.links t s) ∧
    ((addLink R s t).1 = false →
      (addLink R s t).2.links = R.links ∧ (addLink R s t).2.revLinks = R.revLinks) ∧
    ((addLink R s t).1 = true →
      t ∈ getLinks (addLink R s t).2 s ∧ s ∈ getReverseLinks (addLink R s t).2 t) ∧
    (s = t → (addLink R s t).1 = false) := by
  have hiff : (addLink R s t).1 = false ↔ Reaches R.links t s := by
    cases hc : (wouldCreateCycle R s t).1 with
    | true =>
      rw [addLink_of_cycle hc]
      exact iff_of_true rfl ((wouldCreateCycle_iff R s t).mp hc)
    | false =>
      rw [addLink_of_no_cycle hc]
      constructor
      · intro h; exact absurd h (by simp)
      · intro hr
        exact absurd ((wouldCreateCycle_iff R s t).mpr hr) (by rw [hc]; simp)
  refine ⟨hiff, ?_, ?_, ?_⟩
  · intro hf
    cases hc : (wouldCreateCycle R s t).1 with
    | true => rw [addLink_of_cycle hc]; exact ⟨rfl, rfl⟩
    | false => rw [addLink_of_no_cycle hc] at hf; exact absurd hf (by simp)
  · intro ht
    cases hc : (wouldCreateCycle R s t).1 with
    | true => rw [addLink_of_cycle hc] at ht; exact absurd ht (by simp)
    | false =>
      rw [addLink_of_no_cycle hc]
      exact ⟨mem_lookup_addToMap R.links s t, mem_lookup_addToMap R.revLinks t s⟩
  · intro he
    exact hiff.mpr (he ▸ Relation.ReflTransGen.refl)

/-- Witness for C3: after accepting a → b on the empty registry, the reverse
call add_link(b, a) is rejected, obtained from the theorem via the one-edge
path a → b. -/
theorem addLink_spec_witness :
    (addLink (addLink ({} : LinkRegistry String) "a" "b").2 "b" "a").1 = false :=
  (addLink_spec (addLink ({} : LinkRegistry String) "a" "b").2 "b" "a").1.mpr
    (Relation.ReflTransGen.single (by unfold EdgeRel; decide))

/-- One call of C8's refinement: the implementation's add_link (shared
visitation set, cleared on entry) and the spec's add_link (fresh set per
call) agree on the result and on the two adjacency maps. -/
theorem addLink_agrees_addLinkFresh {α : Type} [DecidableEq α]
    (R : LinkRegistry α) (s t : α) :
    (addLink R s t).1 = (addLinkFresh (eraseVisited R) s t).1 ∧
    eraseVisited (addLink R s t).2 = (addLinkFresh (eraseVisited R) s t).2 := by
  have hsame : (wouldCreateCycle R s t).1 =
      (hasPathTo (eraseVisited R).links (dfsFuel (eraseVisited R).links) t s []).1 := rfl
  cases hc : (wouldCreateCycle R s t).1 with
  | true =>
    rw [addLink_of_cycle hc]
    rw [addLinkFresh, if_pos (by rw [← hsame]; exact hc)]
    exact ⟨rfl, rfl⟩
  | false =>
    rw [addLink_of_no_cycle hc]
    rw [addLinkFresh, if_neg (by rw [← hsame, hc]; exact Bool.false_ne_true)]
    exact ⟨rfl, rfl⟩

/-- C8: over any sequence of add_link calls, the shared-visitation-set
implementation returns the same accept/reject results and produces the same
forward and reverse edge maps as an implementation whose cycle-check DFS
allocates a fresh visitation set per call: the _visited set, cleared at the
start of each check, never leaks state between invocations. -/
theorem runAddLinks_refines_fresh {α : Type} [DecidableEq α]
    (ops : List (α × α)) (R : LinkRegistry α) :
    (runAddLinks R ops).1 = (runAddLinksFresh (eraseVisited R) ops).1 ∧
    eraseVisited (runAddLinks R ops).2 = (runAddLinksFresh (eraseVisited R) ops).2 := by
  induction ops generalizing R with
  | nil => exact ⟨rfl, rfl⟩
  | cons op ops ih =>
    obtain ⟨s, t⟩ := op
    obtain ⟨hb, hst⟩ := addLink_agrees_addLinkFresh R s t
    obtain ⟨ih₁, ih₂⟩ := ih (addLink R s t).2
    rw [runAddLinks, runAddLinksFresh]
    simp only
    rw [← hst, hb, ih₁, ih₂]
    exact ⟨rfl, rfl⟩

/-! ## Lemmas: MetadataStore -/

section StoreLemmas

theorem lookupEntry_insertReplace {κ ν : Type} [DecidableEq κ] :
    ∀ (m : List (κ × ν)) (k k₂ : κ) (v : ν),
      lookupEntry (insertReplace m k v) k₂ =
        if k = k₂ then some v else lookupEntry m k₂ := by
  intro m
  induction m with
  | nil =>
    intro k k₂ v
    by_cases h : k = k₂ <;> simp [insertReplace, lookupEntry, h]
  | cons kv rest ih =>
    intro k k₂ v
    obtain ⟨k₁, v₁⟩ := kv
    by_cases h1 : k₁ = k
    · subst h1
      by_cases h2 : k₁ = k₂ <;> simp [insertReplace, lookupEntry, h2]
    · rw [insertReplace, if_neg h1]
      by_cases h2 : k₁ = k₂
      · subst h2
        rw [lookupEntry, if_pos rfl, lookupEntry, if_pos rfl,
          if_neg (fun he => h1 he.symm)]
      · rw [lookupEntry, if_neg h2, lookupEntry, if_neg h2, ih]

theorem keys_insertReplace {κ ν : Type} [DecidableEq κ] :
    ∀ (m : List (κ × ν)) (k : κ) (v : ν),
      (insertReplace m k v).map Prod.fst =
        if k ∈ m.map Prod.fst then m.map Prod.fst else m.map Prod.fst ++ [k] := by
  intro m
  induction m with
  | nil => intro k v; simp [insertReplace]
  | cons kv rest ih =>
    intro k v
    obtain ⟨k₁, v₁⟩ := kv
    by_cases h1 : k₁ = k
    · subst h1
      simp [insertReplace]
    · rw [insertReplace, if_neg h1]
      have hne : ¬ k = k₁ := fun he => h1 he.symm
      by_cases h2 : k ∈ rest.map Prod.fst
      · simp [List.map_cons, ih, h2, List.mem_cons, hne]
      · simp [List.map_cons, ih, h2, List.mem_cons, hne]

theorem length_insertReplace {κ ν : Type} [DecidableEq κ]
    (m : List (κ × ν)) (k : κ) (v : ν) :
    (insertReplace m k v).length =
      if k ∈ m.map Prod.fst then m.length else m.length + 1 := by
  have h := congrArg List.length (keys_insertReplace m k v)
  rw [List.length_map] at h
  by_cases hk : k ∈ m.map Prod.fst
  · rw [if_pos hk] at h
    rw [if_pos hk, h, List.length_map]
  · rw [if_neg hk] at h
    rw [if_neg hk, h, List.length_append, List.length_map]
    rfl

theorem keys_toFinset_insertReplace {κ ν : Type} [DecidableEq κ]
    (m : List (κ × ν)) (k : κ) (v : ν) :
    ((insertReplace m k v).map Prod.fst).toFinset =
      insert k (m.map Prod.fst).toFinset := by
  rw [keys_insertReplace]
  by_cases hk : k ∈ m.map Prod.fst
  · rw [if_pos hk, Finset.insert_eq_self.mpr (List.mem_toFinset.mpr hk)]
  · rw [if_neg hk, List.toFinset_append]
    rw [show ([k] : List κ).toFinset = insert k ∅ from rfl,
      Finset.union_insert, Finset.union_empty]

theorem keys_nodup_insertReplace {κ ν : Type} [DecidableEq κ]
    (m : List (κ × ν)) (k : κ) (v : ν) (h : (m.map Prod.fst).Nodup) :
    ((insertReplace m k v).map Prod.fst).Nodup := by
  rw [keys_insertReplace]
  by_cases hk : k ∈ m.map Prod.fst
  · rw [if_pos hk]; exact h
  · rw [if_neg hk]
    simp [List.nodup_append, h, hk]

theorem getEntry_addEntry (st : MetadataStore) (e : FileEntry) (p : FPath) :
    (st.addEntry e).getEntry p = if e.path = p then some e else st.getEntry p :=
  lookupEntry_insertReplace st.entries e.path p e

theorem getEntry_foldl (p : FPath) :
    ∀ (es : List FileEntry) (st : MetadataStore),
      (es.foldl MetadataStore.addEntry st).getEntry p =
        (es.reverse.find? (fun e => decide (e.path = p))).or (st.getEntry p) := by
  intro es
  induction es with
  | nil => intro st; simp
  | cons e tl ih =>
    intro st
    rw [List.foldl_cons, ih, List.reverse_cons, List.find?_append]
    cases hf : tl.reverse.find? (fun e => decide (e.path = p)) with
    | some x => rfl
    | none =>
      rw [Option.none_or, Option.none_or, getEntry_addEntry]
      by_cases he : e.path = p
      · rw [if_pos he, List.find?_singleton, if_pos (by simpa using he)]
        rfl
      · rw [if_neg he, List.find?_singleton, if_neg (by simpa using he), Option.none_or]

theorem store_keys_foldl :
    ∀ (es : List FileEntry) (st : MetadataStore),
      ((((es.foldl MetadataStore.addEntry st).entries.map Prod.fst).toFinset =
        (st.entries.map Prod.fst).toFinset ∪ (es.map FileEntry.path).toFinset) ∧
      ((st.entries.map Prod.fst).Nodup →
        (((es.foldl MetadataStore.addEntry st).entries.map Prod.fst).Nodup))) := by
  intro es
  induction es with
  | nil => intro st; simp
  | cons e tl ih =>
    intro st
    rw [List.foldl_cons]
    obtain ⟨ih₁, ih₂⟩ := ih (st.addEntry e)
    constructor
    · rw [ih₁]
      show ((insertReplace st.entries e.path e).map Prod.fst).toFinset ∪ _ = _
      rw [keys_toFinset_insertReplace, List.map_cons, List.toFinset_cons,
        Finset.insert_union, Finset.union_insert]
    · intro hn
      refine ih₂ ?_
      exact keys_nodup_insertReplace st.entries e.path e hn

end StoreLemmas

/-! ## Theorems for the claims on MetadataStore -/

/-- C4: for any sequence of add_entry calls, get_entry(path) returns the
most recently added entry with that path (later adds with the same path
replace the record), and stats()['total_entries'] equals the number of
distinct paths inserted. -/
theorem metadataStore_last_write_wins (es : List FileEntry) (p : FPath) :
    ((es.foldl MetadataStore.addEntry {}).getEntry p =
      es.reverse.find? (fun e => decide (e.path = p))) ∧
    (es.foldl MetadataStore.addEntry {}).statsTotalEntries =
      (es.map FileEntry.path).toFinset.card := by
  constructor
  · rw [getEntry_foldl]
    exact Option.or_none
  · obtain ⟨h₁, h₂⟩ := store_keys_foldl es {}
    have hn : (((es.foldl MetadataStore.addEntry {}).entries.map Prod.fst)).Nodup :=
      h₂ List.nodup_nil
    have hcard : (((es.foldl MetadataStore.addEntry {}).entries.map Prod.fst)).toFinset.card =
        ((es.foldl MetadataStore.addEntry {}).entries.map Prod.fst).length := by
      rw [List.card_toFinset, hn.dedup]
    rw [MetadataStore.statsTotalEntries, ← List.length_map _ Prod.fst, ← hcard, h₁]
    simp

/-- Lookup after the setdefault-append of a one-to-many index. -/
theorem lookupListMap_appendAtKey {κ ν : Type} [DecidableEq κ] :
    ∀ (m : List (κ × List ν)) (k k₂ : κ) (v : ν),
      lookupListMap (appendAtKey m k v) k₂ =
        if k = k₂ then lookupListMap m k₂ ++ [v] else lookupListMap m k₂ := by
  intro m
  induction m with
  | nil =>
    intro k k₂ v
    by_cases h : k = k₂ <;> simp [appendAtKey, lookupListMap, h]
  | cons kv rest ih =>
    intro k k₂ v
    obtain ⟨k₁, vs⟩ := kv
    by_cases h1 : k₁ = k
    · subst h1
      by_cases h2 : k₁ = k₂ <;> simp [appendAtKey, lookupListMap, h2]
    · rw [appendAtKey, if_neg h1]
      by_cases h2 : k₁ = k₂
      · subst h2
        rw [lookupListMap, if_pos rfl, lookupListMap, if_pos rfl,
          if_neg (fun he => h1 he.symm)]
      · rw [lookupListMap, if_neg h2, lookupListMap, if_neg h2, ih]

theorem getByType_foldl (t : String) :
    ∀ (es : List FileEntry) (st : MetadataStore),
      (es.foldl MetadataStore.addEntry st).getByType t =
        st.getByType t ++ es.filter (fun e => decide (e.fileType = t)) := by
  intro es
  induction es with
  | nil => intro st; simp
  | cons e tl ih =>
    intro st
    rw [List.foldl_cons, ih, List.filter_cons]
    show (MetadataStore.addEntry st e).getByType t ++ _ = _
    rw [MetadataStore.getByType, MetadataStore.addEntry]
    rw [show (lookupListMap (appendAtKey st.byType e.fileType e) t) =
      if e.fileType = t then lookupListMap st.byType t ++ [e] else lookupListMap st.byType t
      from lookupListMap_appendAtKey st.byType e.fileType t e]
    by_cases he : e.fileType = t
    · rw [if_pos he, if_pos (by simpa using he)]
      simp [MetadataStore.getByType]
    · rw [if_neg he, if_neg (by simpa using he)]
      rfl

theorem getByFolder_foldl (f : FPath) :
    ∀ (es : List FileEntry) (st : MetadataStore),
      (es.foldl MetadataStore.addEntry st).getByFolder f =
        st.getByFolder f ++ es.filter (fun e => decide (e.folder = f)) := by
  intro es
  induction es with
  | nil => intro st; simp
  | cons e tl ih =>
    intro st
    rw [List.foldl_cons, ih, List.filter_cons]
    show (MetadataStore.addEntry st e).getByFolder f ++ _ = _
    rw [MetadataStore.getByFolder, MetadataStore.addEntry]
    rw [show (lookupListMap (appendAtKey st.byFolder e.folder e) f) =
      if e.folder = f then lookupListMap st.byFolder f ++ [e] else lookupListMap st.byFolder f
      from lookupListMap_appendAtKey st.byFolder e.folder f e]
    by_cases he : e.folder = f
    · rw [if_pos he, if_pos (by simpa using he)]
      simp [MetadataStore.getByFolder]
    · rw [if_neg he, if_neg (by simpa using he)]
      rfl

/-- C9: add_entry never removes superseded records from the type and folder
indices: after any sequence of add_entry calls, get_by_type and
get_by_folder return one record per matching add_entry invocation — so on a
path overwritten by a later add both the replaced and the new record are
returned, and the index lengths count invocations, not distinct live
paths. -/
theorem metadataStore_indices_count_invocations (es : List FileEntry) (t : String)
    (f : FPath) :
    ((es.foldl MetadataStore.addEntry {}).getByType t =
      es.filter (fun e => decide (e.fileType = t))) ∧
    ((es.foldl MetadataStore.addEntry {}).getByFolder f =
      es.filter (fun e => decide (e.folder = f))) := by
  constructor
  · rw [getByType_foldl]
    rfl
  · rw [getByFolder_foldl]
    rfl

/-! ## Lemmas: FileProcessor -/

section ProcessorLemmas

theorem path_addLinkTo (e : FileEntry) (p : FPath) :
    (e.addLinkTo p).path = e.path := by
  unfold FileEntry.addLinkTo
  split <;> rfl

theorem processExternalOne_preserves (C : Collaborators) (root : FPath)
    (followExternal : Bool) (ep : FileEntry × FPState) (p : FPath) :
    (processExternalOne C root followExternal ep p).2.processedPaths =
      ep.2.processedPaths ∧
    (processExternalOne C root followExternal ep p).2.outputList = ep.2.outputList ∧
    (processExternalOne C root followExternal ep p).1.path = ep.1.path := by
  obtain ⟨e, s⟩ := ep
  unfold processExternalOne
  simp only
  split
  · exact ⟨rfl, rfl, rfl⟩
  · split
    · exact ⟨rfl, rfl, rfl⟩
    · split
      · exact ⟨rfl, rfl, rfl⟩
      · split
        · exact ⟨rfl, rfl, path_addLinkTo e _⟩
        · split
          · exact ⟨rfl, rfl, path_addLinkTo e _⟩
          · exact ⟨rfl, rfl, rfl⟩

theorem foldl_processExternalOne_preserves (C : Collaborators) (root : FPath)
    (followExternal : Bool) :
    ∀ (ps : List FPath) (ep : FileEntry × FPState),
      (ps.foldl (processExternalOne C root followExternal) ep).2.processedPaths =
        ep.2.processedPaths ∧
      (ps.foldl (processExternalOne C root followExternal) ep).2.outputList =
        ep.2.outputList ∧
      (ps.foldl (processExternalOne C root followExternal) ep).1.path = ep.1.path := by
  intro ps
  induction ps with
  | nil => intro ep; exact ⟨rfl, rfl, rfl⟩
  | cons p ps ih =>
    intro ep
    rw [List.foldl_cons]
    obtain ⟨h₁, h₂, h₃⟩ := ih (processExternalOne C root followExternal ep p)
    obtain ⟨g₁, g₂, g₃⟩ := processExternalOne_preserves C root followExternal ep p
    exact ⟨h₁.trans g₁, h₂.trans g₂, h₃.trans g₃⟩

theorem processEntry_preserves (C : Collaborators) (root : FPath)
    (followExternal blenderAvailable : Bool) (e : FileEntry) (s : FPState) :
    (processEntry C root followExternal blenderAvailable e s).2.processedPaths =
      s.processedPaths ∧
    (processEntry C root followExternal blenderAvailable e s).2.outputList =
      s.outputList ∧
    (processEntry C root followExternal blenderAvailable e s).1.path = e.path := by
  unfold processEntry processBlendFile
  split
  · exact ⟨rfl, rfl, rfl⟩
  · split
    · split
      · exact foldl_processExternalOne_preserves C root followExternal _ (e, s)
      · exact ⟨rfl, rfl, rfl⟩
    · exact ⟨rfl, rfl, rfl⟩

theorem processOne_outputList (C : Collaborators) (root : FPath)
    (followExternal blenderAvailable : Bool) (e : FileEntry) (s : FPState) :
    (processOne C root followExternal blenderAvailable e s).outputList =
      s.outputList ++
        [{ (processEntry C root followExternal blenderAvailable e s).1 with
          processed := true }] := by
  show (processEntry C root followExternal blenderAvailable e s).2.outputList ++ _ = _
  rw [(processEntry_preserves C root followExternal blenderAvailable e s).2.1]

theorem processOne_processedPaths (C : Collaborators) (root : FPath)
    (followExternal blenderAvailable : Bool) (e : FileEntry) (s : FPState) :
    (processOne C root followExternal blenderAvailable e s).processedPaths =
      s.processedPaths :=
  (processEntry_preserves C root followExternal blenderAvailable e s).1

theorem processOne_newPath (C : Collaborators) (root : FPath)
    (followExternal blenderAvailable : Bool) (e : FileEntry) (s : FPState) :
    ({ (processEntry C root followExternal blenderAvailable e s).1 with
      processed := true } : FileEntry).path = e.path :=
  (processEntry_preserves C root followExternal blenderAvailable e s).2.2

theorem processStack_nodup_invariant (C : Collaborators) (root : FPath)
    (followExternal blenderAvailable : Bool) :
    ∀ (fuel : Nat) (s : FPState),
      (s.outputList.map FileEntry.path).Nodup →
      (∀ q, q ∈ s.outputList.map FileEntry.path → q ∈ s.processedPaths) →
      (((processStack C root followExternal blenderAvailable fuel s).outputList.map
        FileEntry.path).Nodup) := by
  intro fuel
  induction fuel with
  | zero => intro s hn _; exact hn
  | succ fuel ih =>
    intro s hn hsub
    rw [processStack]
    cases hq : s.queue with
    | nil => exact hn
    | cons e rest =>
      simp only
      by_cases hmem : e.path ∈ s.processedPaths
      · rw [if_pos hmem]
        exact ih _ hn hsub
      · rw [if_neg hmem]
        refine ih _ ?_ ?_
        · rw [processOne_outputList, List.map_append]
          simp only [List.map_cons, List.map_nil]
          rw [processOne_newPath]
          have hnotin : e.path ∉ s.outputList.map FileEntry.path :=
            fun hin => hmem (hsub _ hin)
          simp [List.nodup_append, hn, hnotin]
        · intro q hqin
          rw [processOne_outputList, List.map_append] at hqin
          rw [processOne_processedPaths]
          show q ∈ s.processedPaths ++ [e.path]
          rcases List.mem_append.mp hqin with hold | hnew
          · exact List.mem_append_left _ (hsub q hold)
          · simp only [List.map_cons, List.map_nil, List.mem_singleton] at hnew
            have hqe : q = e.path := by
              rw [hnew]
              exact processOne_newPath C root followExternal blenderAvailable e _
            exact List.mem_append_right _ (hqe ▸ List.mem_singleton.mpr rfl)

end ProcessorLemmas

/-! ## Theorems for the claims on FileProcessor -/

/-- C6: for every seed worklist and every pattern of dependency discovery
(any collaborator oracles), each distinct file path appears at most once in
the output sequence of process_stack: a dequeued entry whose path is already
in the processed-path set is discarded without reprocessing. -/
theorem processStack_no_double_processing (C : Collaborators) (root : FPath)
    (followExternal blenderAvailable : Bool) (fuel : Nat) (st : MetadataStore)
    (R : LinkRegistry FPath) (seeds : List FileEntry) :
    (((processStack C root followExternal blenderAvailable fuel
      { store := st, registry := R, processedPaths := [], outputList := [],
        queue := seeds }).outputList.map FileEntry.path).Nodup) :=
  processStack_nodup_invariant C root followExternal blenderAvailable fuel _
    List.nodup_nil (by intro q hq; exact absurd hq (List.not_mem_nil q))

/-- C7: with follow_external disabled, an external path that does not
resolve under the root folder is only recorded in the entry's
external_links metadata: no FileEntry is created, nothing is enqueued, no
link is registered, and the run state is otherwise untouched. -/
theorem externalOutsideRoot_recorded_only (C : Collaborators) (root : FPath)
    (e : FileEntry) (s : FPState) (p : FPath)
    (hout : isInRootFolder root p = false) :
    processExternalOne C root false (e, s) p =
      ({ e with externalLinks := e.externalLinks ++ [p] }, s) := by
  unfold processExternalOne
  simp [hout]

/-- Witness for C7 at a concrete input: root r, external path x/ext.png. -/
theorem externalOutsideRoot_recorded_only_witness :
    processExternalOne fixC ["r"] false (fixBlend, fixStateEmpty) ["x", "ext.png"] =
      ({ fixBlend with externalLinks := fixBlend.externalLinks ++ [["x", "ext.png"]] },
        fixStateEmpty) :=
  externalOutsideRoot_recorded_only fixC ["r"] fixBlend fixStateEmpty ["x", "ext.png"]
    (by decide)

/-- C1 counterexample: an external path that exists on disk and passes the
follow-external gate but is already in the processed-path set is skipped
entirely — the loop body returns the entry and state unchanged, registers no
edge in LinkRegistry and appends nothing to e.links, contradicting the
claim that the link is registered and the entry appended "including when p
is already in the processed-path set". -/
theorem processExternalOne_processed_skip_cx :
    fixC.existsOnDisk fixTexPath = true ∧
    (!true && !isInRootFolder ["r"] fixTexPath) = false ∧
    fixTexPath ∈ fixStateProcessed.processedPaths ∧
    processExternalOne fixC ["r"] true (fixBlend, fixStateProcessed) fixTexPath =
      (fixBlend, fixStateProcessed) ∧
    getLinks (processExternalOne fixC ["r"] true (fixBlend, fixStateProcessed)
      fixTexPath).2.registry fixBlend.path = [] ∧
    fixTexPath ∉ (processExternalOne fixC ["r"] true (fixBlend, fixStateProcessed)
      fixTexPath).1.links := by
  decide

/-- C1 (amended): for a dequeued container entry e and an external path p
that exists on disk and passes the follow-external gate, the loop body
registers the link e.path → p (via add_link, which may still reject it as a
cycle) and appends the linked entry to e.links exactly when p is not already
in the processed-path set and an entry for p is available — found in the
store or freshly synthesized.  In the two remaining cases nothing is
registered and nothing is appended: a p already in the processed-path set is
skipped entirely, and a p whose store lookup misses and whose synthesis
fails leaves entry and state unchanged. -/
theorem processExternalOne_amended (C : Collaborators) (root : FPath)
    (followExternal : Bool) (e : FileEntry) (s : FPState) (p : FPath)
    (hgate : (!followExternal && !isInRootFolder root p) = false)
    (hex : C.existsOnDisk p = true) :
    (p ∈ s.processedPaths →
      processExternalOne C root followExternal (e, s) p = (e, s)) ∧
    (p ∉ s.processedPaths → ∀ ex, s.store.getEntry p = some ex →
      processExternalOne C root followExternal (e, s) p =
        (e.addLinkTo ex.path,
         { s with registry := (addLink s.registry e.path p).2 })) ∧
    (p ∉ s.processedPaths → s.store.getEntry p = none →
      ∀ newE, createEntryForFile C p = some newE →
        processExternalOne C root followExternal (e, s) p =
          (e.addLinkTo newE.path,
           { s with
             store := s.store.addEntry newE,
             queue := s.queue ++ [newE],
             registry := (addLink s.registry e.path p).2 })) ∧
    (p ∉ s.processedPaths → s.store.getEntry p = none →
      createEntryForFile C p = none →
      processExternalOne C root followExternal (e, s) p = (e, s)) := by
  refine ⟨?_, ?_, ?_, ?_⟩
  · intro hmem
    unfold processExternalOne
    simp [hgate, hex, hmem]
  · intro hmem ex hget
    unfold processExternalOne
    simp [hgate, hex, hmem, hget]
  · intro hmem hget newE hnew
    unfold processExternalOne
    simp [hgate, hex, hmem, hget, hnew]
  · intro hmem hget hnone
    unfold processExternalOne
    simp [hgate, hex, hmem, hget, hnone]

/-- Witness for the amended C1: the texture entry is already in the store
and not yet processed, so the link is registered and the entry appended. -/
theorem processExternalOne_amended_witness :
    processExternalOne fixC ["r"] true (fixBlend, fixStateWithTex) fixTexPath =
      (fixBlend.addLinkTo fixTexEntry.path,
       { fixStateWithTex with
         registry := (addLink fixStateWithTex.registry fixBlend.path fixTexPath).2 }) :=
  (processExternalOne_amended fixC ["r"] true fixBlend fixStateWithTex fixTexPath
    (by decide) (by decide)).2.1 (by decide) fixTexEntry (by decide)

/-! ## Lemmas: DigraphBuilder -/

section DigraphLemmas

theorem edgeWeightList_bumpEdge :
    ∀ (es : List ((String × String) × EdgeData)) (k k₂ : String × String)
      (pair : String × String),
      edgeWeightList (bumpEdge es k pair) k₂ =
        if k = k₂ then edgeWeightList es k₂ + 1 else edgeWeightList es k₂ := by
  intro es
  induction es with
  | nil =>
    intro k k₂ pair
    by_cases h : k = k₂ <;> simp [bumpEdge, edgeWeightList, h]
  | cons kd rest ih =>
    intro k k₂ pair
    obtain ⟨k₁, d⟩ := kd
    by_cases h1 : k₁ = k
    · subst h1
      by_cases h2 : k₁ = k₂ <;> simp [bumpEdge, edgeWeightList, h2]
    · rw [bumpEdge, if_neg h1]
      by_cases h2 : k₁ = k₂
      · subst h2
        rw [edgeWeightList, if_pos rfl, edgeWeightList, if_pos rfl,
          if_neg (fun he => h1 he.symm)]
      · rw [edgeWeightList, if_neg h2, edgeWeightList, if_neg h2, ih]

theorem nodes_addOrIncEdge {ν : Type} (g : Digraph ν) (s t : String)
    (pair : String × String) : (addOrIncEdge g s t pair).nodes = g.nodes := rfl

theorem edges_addNode {ν : Type} (g : Digraph ν) (i : String) (d : ν) :
    (addNode g i d).edges = g.edges := rfl

theorem insertReplace_of_not_mem {κ ν : Type} [DecidableEq κ] :
    ∀ (m : List (κ × ν)) (k : κ) (v : ν), k ∉ m.map Prod.fst →
      insertReplace m k v = m ++ [(k, v)] := by
  intro m
  induction m with
  | nil => intro k v _; rfl
  | cons kv rest ih =>
    intro k v hk
    rw [List.map_cons, List.mem_cons] at hk
    rw [insertReplace, if_neg (fun he => hk (Or.inl he.symm)),
      ih k v (fun hm => hk (Or.inr hm)), List.cons_append]

theorem fileLevel_inner_weight (root : FPath) (u v : String) (e : FileEntry) :
    ∀ (ls : List FPath) (g : Digraph FileNodeData),
      edgeWeight (ls.foldl (fun g p =>
        addOrIncEdge g (relPathId e.path root) (relPathId p root)
          (e.name, p.getLastD "")) g) u v =
      edgeWeight g u v +
        (ls.filter (fun p =>
          decide (relPathId e.path root = u ∧ relPathId p root = v))).length := by
  intro ls
  induction ls with
  | nil => intro g; simp
  | cons p ls ih =>
    intro g
    rw [List.foldl_cons, ih, List.filter_cons]
    by_cases hc : relPathId e.path root = u ∧ relPathId p root = v
    · rw [if_pos (by simpa using hc)]
      have hw : edgeWeight (addOrIncEdge g (relPathId e.path root) (relPathId p root)
          (e.name, p.getLastD "")) u v = edgeWeight g u v + 1 := by
        show edgeWeightList (bumpEdge g.edges _ _) (u, v) = _
        rw [edgeWeightList_bumpEdge]
        rw [if_pos (by rw [hc.1, hc.2])]
        rfl
      rw [hw, List.length_cons]
      omega
    · rw [if_neg (by simpa using hc)]
      have hw : edgeWeight (addOrIncEdge g (relPathId e.path root) (relPathId p root)
          (e.name, p.getLastD "")) u v = edgeWeight g u v := by
        show edgeWeightList (bumpEdge g.edges _ _) (u, v) = _
        rw [edgeWeightList_bumpEdge]
        rw [if_neg (fun he => hc ⟨congrArg Prod.fst he, congrArg Prod.snd he⟩)]
        rfl
      rw [hw]

theorem fileLevel_outer_weight (root : FPath) (u v : String) :
    ∀ (es : List FileEntry) (g : Digraph FileNodeData),
      edgeWeight (es.foldl (fun g e => e.links.foldl (fun g p =>
        addOrIncEdge g (relPathId e.path root) (relPathId p root)
          (e.name, p.getLastD "")) g) g) u v =
      edgeWeight g u v +
        (es.map (fun e => (e.links.filter (fun p =>
          decide (relPathId e.path root = u ∧ relPathId p root = v))).length)).sum := by
  intro es
  induction es with
  | nil => intro g; simp
  | cons e es ih =>
    intro g
    rw [List.foldl_cons, ih, fileLevel_inner_weight, List.map_cons, List.sum_cons]
    omega

theorem fileLevel_inner_nodes (root : FPath) (e : FileEntry) :
    ∀ (ls : List FPath) (g : Digraph FileNodeData),
      (ls.foldl (fun g p =>
        addOrIncEdge g (relPathId e.path root) (relPathId p root)
          (e.name, p.getLastD "")) g).nodes = g.nodes := by
  intro ls
  induction ls with
  | nil => intro g; rfl
  | cons p ls ih => intro g; rw [List.foldl_cons, ih, nodes_addOrIncEdge]

theorem fileLevel_outer_nodes (root : FPath) :
    ∀ (es : List FileEntry) (g : Digraph FileNodeData),
      (es.foldl (fun g e => e.links.foldl (fun g p =>
        addOrIncEdge g (relPathId e.path root) (relPathId p root)
          (e.name, p.getLastD "")) g) g).nodes = g.nodes := by
  intro es
  induction es with
  | nil => intro g; rfl
  | cons e es ih => intro g; rw [List.foldl_cons, ih, fileLevel_inner_nodes]

theorem fileLevel_nodeFold_spec (root : FPath) :
    ∀ (es : List FileEntry) (g : Digraph FileNodeData),
      (es.map (fun e => relPathId e.path root)).Nodup →
      (∀ e ∈ es, relPathId e.path root ∉ g.nodes.map Prod.fst) →
      ((es.foldl (fun g e =>
          addNode g (relPathId e.path root)
            { folderGroup := getNodeId e.folder root, size := e.size,
              fileType := e.fileType, label := e.name }) g).nodes =
        g.nodes ++ es.map (fun e =>
          (relPathId e.path root,
            ({ folderGroup := getNodeId e.folder root, size := e.size,
               fileType := e.fileType, label := e.name } : FileNodeData)))) ∧
      ((es.foldl (fun g e =>
          addNode g (relPathId e.path root)
            { folderGroup := getNodeId e.folder root, size := e.size,
              fileType := e.fileType, label := e.name }) g).edges = g.edges) := by
  intro es
  induction es with
  | nil => intro g _ _; exact ⟨by simp, rfl⟩
  | cons e es ih =>
    intro g hn hdis
    rw [List.foldl_cons]
    have hnodes : (addNode g (relPathId e.path root)
        { folderGroup := getNodeId e.folder root, size := e.size,
          fileType := e.fileType, label := e.name }).nodes =
        g.nodes ++ [(relPathId e.path root,
          ({ folderGroup := getNodeId e.folder root, size := e.size,
             fileType := e.fileType, label := e.name } : FileNodeData))] :=
      insertReplace_of_not_mem g.nodes _ _ (hdis e (List.mem_cons_self e es))
    have hn₂ : (es.map (fun e => relPathId e.path root)).Nodup :=
      (List.nodup_cons.mp (by simpa using hn)).2
    have hdis₂ : ∀ e₂ ∈ es, relPathId e₂.path root ∉
        (addNode g (relPathId e.path root)
          { folderGroup := getNodeId e.folder root, size := e.size,
            fileType := e.fileType, label := e.name }).nodes.map Prod.fst := by
      intro e₂ he₂
      rw [hnodes, List.map_append, List.mem_append]
      rintro (hin | hin)
      · exact hdis e₂ (List.mem_cons_of_mem e he₂) hin
      · simp only [List.map_cons, List.map_nil, List.mem_singleton] at hin
        have hne : relPathId e.path root ∉ es.map (fun e => relPathId e.path root) :=
          (List.nodup_cons.mp (by simpa using hn)).1
        exact hne (hin ▸ List.mem_map_of_mem (fun e => relPathId e.path root) he₂)
    obtain ⟨ihn, ihe⟩ := ih _ hn₂ hdis₂
    constructor
    · rw [ihn, hnodes, List.map_cons, List.append_assoc, List.singleton_append]
    · rw [ihe, edges_addNode]

theorem folderEdgeStep_inv (root : FPath) (e : FileEntry)
    (acc : Digraph FolderNodeData × List (String × String)) (p : FPath)
    (h : FolderPassInv acc) : FolderPassInv (folderEdgeStep root e acc p) := by
  obtain ⟨h₁, h₂⟩ := h
  unfold folderEdgeStep
  by_cases hself : getNodeId e.folder root = getNodeId p.dropLast root
  · rw [if_pos hself]; exact ⟨h₁, h₂⟩
  · rw [if_neg hself]
    by_cases hmem : (getNodeId e.folder root, getNodeId p.dropLast root) ∈ acc.2
    · rw [if_pos hmem]; exact ⟨h₁, h₂⟩
    · rw [if_neg hmem]
      constructor
      · intro k hk
        show edgeWeightList (bumpEdge acc.1.edges _ _) k = 1
        rw [edgeWeightList_bumpEdge]
        rcases List.mem_append.mp hk with hold | hnew
        · rw [if_neg (fun he => hmem (by rw [he]; exact hold)), h₁ k hold]
        · rw [List.mem_singleton] at hnew
          rw [if_pos hnew.symm, h₂ k (by rw [hnew]; exact hmem)]
      · intro k hk
        show edgeWeightList (bumpEdge acc.1.edges _ _) k = 0
        rw [List.mem_append] at hk
        push_neg at hk
        rw [edgeWeightList_bumpEdge,
          if_neg (fun he => hk.2 (by rw [← he]; exact List.mem_singleton.mpr rfl)),
          h₂ k hk.1]

theorem folderPass_links_inv (root : FPath) (e : FileEntry) :
    ∀ (ls : List FPath) (acc : Digraph FolderNodeData × List (String × String)),
      FolderPassInv acc → FolderPassInv (ls.foldl (folderEdgeStep root e) acc) := by
  intro ls
  induction ls with
  | nil => intro acc h; exact h
  | cons p ls ih =>
    intro acc h
    rw [List.foldl_cons]
    exact ih _ (folderEdgeStep_inv root e acc p h)

theorem folderPass_entries_inv (root : FPath) :
    ∀ (es : List FileEntry) (acc : Digraph FolderNodeData × List (String × String)),
      FolderPassInv acc →
      FolderPassInv (es.foldl (fun acc e => e.links.foldl (folderEdgeStep root e) acc) acc) := by
  intro es
  induction es with
  | nil => intro acc h; exact h
  | cons e es ih =>
    intro acc h
    rw [List.foldl_cons]
    exact ih _ (folderPass_links_inv root e e.links acc h)

theorem folderNodePass_edges (root : FPath) :
    ∀ (gs : List (FPath × List FileEntry)) (g : Digraph FolderNodeData),
      (gs.foldl (fun g kv =>
        addNode g (getNodeId kv.1 root)
          { folderPath := kv.1, fileCount := kv.2.length,
            totalSize := (kv.2.map FileEntry.size).sum }) g).edges = g.edges := by
  intro gs
  induction gs with
  | nil => intro g; rfl
  | cons kv gs ih => intro g; rw [List.foldl_cons, ih, edges_addNode]

theorem buildByFolderHierarchy_weight_le_one (st : MetadataStore) (root : FPath)
    (u v : String) : edgeWeight (buildByFolderHierarchy st root) u v ≤ 1 := by
  have hbuild : buildByFolderHierarchy st root =
      (st.getAllEntries.foldl (fun acc e => e.links.foldl (folderEdgeStep root e) acc)
        ((groupByFolder st.getAllEntries).foldl (fun g kv =>
          addNode g (getNodeId kv.1 root)
            { folderPath := kv.1, fileCount := kv.2.length,
              totalSize := (kv.2.map FileEntry.size).sum }) ({} : Digraph FolderNodeData),
          [])).1 := rfl
  have hinv : FolderPassInv
      (st.getAllEntries.foldl (fun acc e => e.links.foldl (folderEdgeStep root e) acc)
        ((groupByFolder st.getAllEntries).foldl (fun g kv =>
          addNode g (getNodeId kv.1 root)
            { folderPath := kv.1, fileCount := kv.2.length,
              totalSize := (kv.2.map FileEntry.size).sum }) ({} : Digraph FolderNodeData),
          [])) := by
    refine folderPass_entries_inv root st.getAllEntries _ ⟨?_, ?_⟩
    · intro k hk
      exact absurd hk (List.not_mem_nil k)
    · intro k _
      show edgeWeightList _ k = 0
      rw [folderNodePass_edges]
      rfl
  obtain ⟨h₁, h₂⟩ := hinv
  rw [hbuild]
  by_cases hmem : (u, v) ∈
      (st.getAllEntries.foldl (fun acc e => e.links.foldl (folderEdgeStep root e) acc)
        ((groupByFolder st.getAllEntries).foldl (fun g kv =>
          addNode g (getNodeId kv.1 root)
            { folderPath := kv.1, fileCount := kv.2.length,
              totalSize := (kv.2.map FileEntry.size).sum }) ({} : Digraph FolderNodeData),
          [])).2
  · exact Nat.le_of_eq (h₁ (u, v) hmem)
  · exact le_trans (Nat.le_of_eq (h₂ (u, v) hmem)) (Nat.zero_le 1)

end DigraphLemmas

/-! ## Theorems for the claims on DigraphBuilder -/

/-- C2 (evaluating the code at the failing input): two files of folder A
each link to the same file of folder B — two cross-folder links for the
ordered folder pair (A, B) — yet the built folder graph carries the edge
A → B with weight 1 and only the first contributing name pair: the
processed_edges guard of build_by_folder_hierarchy marks the ordered pair
after its first link and skips every later one, so the weight-increment
branch can never run. -/
theorem buildByFolderHierarchy_weight_capped :
    ((fixFolderStore.getAllEntries.filter
      (fun e => decide ((["r", "B", "b.png"] : FPath) ∈ e.links))).length = 2) ∧
    edgeWeight (buildByFolderHierarchy fixFolderStore ["r"]) "A" "B" = 1 ∧
    edgeFileLinks (buildByFolderHierarchy fixFolderStore ["r"]) "A" "B" =
      [("a1.blend", "b.png")] ∧
    (∀ (st : MetadataStore) (root : FPath) (u v : String),
      edgeWeight (buildByFolderHierarchy st root) u v ≤ 1) :=
  ⟨by decide, by decide, by decide,
    fun st root u v => buildByFolderHierarchy_weight_le_one st root u v⟩

/-- C5: the file-level build mode (modelled from §4.4 of the spec, absent
from src/) produces one node per store file keyed by relative path and
tagged with folder_group, size, type and label, and collapses repeated
links between the same ordered file pair into one edge whose weight is the
occurrence count. -/
theorem buildByFileLevel_spec (st : MetadataStore) (root : FPath)
    (h : (st.getAllEntries.map (fun e => relPathId e.path root)).Nodup) :
    ((buildByFileLevel st root).nodes =
      st.getAllEntries.map (fun e =>
        (relPathId e.path root,
          ({ folderGroup := getNodeId e.folder root, size := e.size,
             fileType := e.fileType, label := e.name } : FileNodeData)))) ∧
    (∀ u v, edgeWeight (buildByFileLevel st root) u v = linkOccurrences st root u v) := by
  obtain ⟨hnodes, hedges⟩ := fileLevel_nodeFold_spec root st.getAllEntries
    ({} : Digraph FileNodeData) h (by intro e _ hin; exact absurd hin (by simp))
  have hbuild : buildByFileLevel st root =
      st.getAllEntries.foldl (fun g e => e.links.foldl (fun g p =>
        addOrIncEdge g (relPathId e.path root) (relPathId p root)
          (e.name, p.getLastD "")) g)
      (st.getAllEntries.foldl (fun g e =>
        addNode g (relPathId e.path root)
          { folderGroup := getNodeId e.folder root, size := e.size,
            fileType := e.fileType, label := e.name }) ({} : Digraph FileNodeData)) := rfl
  constructor
  · rw [hbuild, fileLevel_outer_nodes, hnodes]
    rfl
  · intro u v
    rw [hbuild, fileLevel_outer_weight]
    have h0 : edgeWeight (st.getAllEntries.foldl (fun g e =>
        addNode g (relPathId e.path root)
          { folderGroup := getNodeId e.folder root, size := e.size,
            fileType := e.fileType, label := e.name }) ({} : Digraph FileNodeData)) u v
        = 0 := by
      show edgeWeightList _ (u, v) = 0
      rw [hedges]
      rfl
    rw [h0, linkOccurrences]
    omega

/-- Witness for C5 at the file-mode fixture: a.blend linked twice to b.png
yields one edge of weight 2. -/
theorem buildByFileLevel_spec_witness :
    edgeWeight (buildByFileLevel fixFileStore ["r"]) "a.blend" "b.png" = 2 := by
  have h := (buildByFileLevel_spec fixFileStore ["r"] (by decide)).2 "a.blend" "b.png"
  rw [h]
  decide

/-- C10: get_statistics returns exactly the keys node_count, edge_count,
density, is_dag and connected_components — neither file_count nor
link_count — so the stats['file_count'] and stats['link_count'] subscripts
of process_project's summary step find no key (a KeyError) on every run
that reaches them. -/
theorem getStatistics_keys_summary_keyerror {ν : Type} (density : Digraph ν → Rat)
    (isDag : Digraph ν → Bool) (ncc : Digraph ν → Nat) (g : Digraph ν) :
    ((getStatistics density isDag ncc g).map Prod.fst =
      ["node_count", "edge_count", "density", "is_dag", "connected_components"]) ∧
    summaryStatReads density isDag ncc g = (none, none) := by
  exact ⟨rfl, rfl⟩

end BlenderDoc
